import Mathlib

/-!
Verification of the lane-assignment algorithm of the vscode-look-git
extension (source file src/graphView/graphLaneAssigner.ts).

The mutable lanes array of the source (entries: a commit hash the lane
expects next, or null for a free slot) is modelled as a
List (Option String); the imperative per-commit loop body is the
function stepCommit, and assignLanes folds it over the commit list.
Only the two fields of GraphCommitInfo that the algorithm reads
(hash, parentHashes) are carried; the remaining display metadata
(shortHash, message, author, date, refs) never influences lane
assignment.
-/

namespace LookGit

/-- The fixed palette LANE_COLORS of the source. -/
def LANE_COLORS : List String :=
  ["#f97583", "#79b8ff", "#85e89d", "#ffab70", "#b392f0",
   "#f692ce", "#73daca", "#ffd700", "#9ecbff", "#c8d6e5"]

/-- The five line kinds of LineDef.type. -/
inductive LineType where
  | straight
  | mergeLeft
  | mergeRight
  | forkLeft
  | forkRight
  deriving DecidableEq, Repr

/-- A connector line of one row (source interface LineDef). -/
structure LineDef where
  fromLane : Nat
  toLane : Nat
  color : String
  type : LineType
  deriving DecidableEq, Repr

/-- Per-row lane data (source interface LaneData). -/
structure LaneData where
  lane : Nat
  color : String
  lines : List LineDef
  deriving DecidableEq, Repr

/-- A commit record; only the fields read by the lane assigner. -/
structure GraphCommitInfo where
  hash : String
  parentHashes : List String
  deriving DecidableEq, Repr

/-- A produced row (source interface GraphRow). -/
structure GraphRow where
  commit : GraphCommitInfo
  laneData : LaneData
  deriving DecidableEq, Repr

/-- The lanes array: slot i holds the hash expected next in lane i, or none. -/
abbrev Track := List (Option String)

/-- Color of a lane: LANE_COLORS[lane % LANE_COLORS.length]. -/
def laneColor (n : Nat) : String :=
  LANE_COLORS.get ⟨n % LANE_COLORS.length, Nat.mod_lt n (by decide)⟩

/-- Source findLane: index of the first slot equal to the given hash
(the loop scans from 0; a null slot never equals a string hash). -/
def findLane (lanes : Track) (hash : String) : Option Nat :=
  match lanes with
  | [] => none
  | slot :: rest =>
      if slot = some hash then some 0
      else (findLane rest hash).map (· + 1)

/-- Source findFreeLane: index of the first free (null) slot, or the
array length when no slot is free. -/
def findFreeLane : Track → Nat
  | [] => 0
  | none :: _ => 0
  | some _ :: rest => findFreeLane rest + 1

/-- Lane resolution for the current commit (source lines 61-69): the lane
expecting this hash, else the lowest free lane, pushing a fresh slot when
the free-lane scan ran past the end. -/
def resolveLane (lanes : Track) (hash : String) : Nat × Track :=
  match findLane lanes hash with
  | some lane => (lane, lanes)
  | none =>
      let lane := findFreeLane lanes
      (lane, if lane < lanes.length then lanes else lanes ++ [none])

/-- Pass-through lines (source lines 77-86): one straight line for every
other still-occupied lane, in ascending lane order. -/
def passLines (lanes : Track) (lane : Nat) : List LineDef :=
  (List.range lanes.length).filterMap fun i =>
    match lanes[i]? with
    | some (some _) =>
        if i = lane then none
        else some ⟨i, i, laneColor i, LineType.straight⟩
    | _ => none

/-- First-parent wiring (source lines 92-125): merge toward the lane that
already expects the parent, otherwise claim the commit's own lane. -/
def wireFirstParent (lanes : Track) (lane : Nat) (firstParent : String) :
    Track × List LineDef :=
  match findLane lanes firstParent with
  | some existingLane =>
      if existingLane = lane then
        (lanes.set lane (some firstParent),
         [⟨lane, lane, laneColor lane, LineType.straight⟩])
      else
        (lanes.set lane none,
         [⟨lane, existingLane, laneColor existingLane,
           if existingLane < lane then LineType.mergeLeft else LineType.mergeRight⟩])
  | none =>
      (lanes.set lane (some firstParent),
       [⟨lane, lane, laneColor lane, LineType.straight⟩])

/-- One additional parent of a merge commit (source lines 129-155). -/
def wireExtraParent (lanes : Track) (lane : Nat) (parentHash : String) :
    Track × LineDef :=
  match findLane lanes parentHash with
  | some parentLane =>
      (lanes,
       ⟨lane, parentLane, laneColor parentLane,
        if parentLane < lane then LineType.mergeLeft else LineType.mergeRight⟩)
  | none =>
      let newLane := findFreeLane lanes
      let grown := if newLane < lanes.length then lanes else lanes ++ [none]
      (grown.set newLane (some parentHash),
       ⟨lane, newLane, laneColor newLane,
        if newLane < lane then LineType.forkLeft else LineType.forkRight⟩)

/-- All additional parents, in listed order (source loop at line 128). -/
def wireExtraParents (lanes : Track) (lane : Nat) : List String → Track × List LineDef
  | [] => (lanes, [])
  | p :: ps =>
      let s := wireExtraParent lanes lane p
      let r := wireExtraParents s.1 lane ps
      (r.1, s.2 :: r.2)

/-- The body of the per-commit loop of assignLanes (source lines 59-163):
resolve the lane, clear the slot, emit pass-through lines, wire parents. -/
def stepCommit (lanes : Track) (commit : GraphCommitInfo) : Track × GraphRow :=
  let r := resolveLane lanes commit.hash
  let lane := r.1
  let cleared := r.2.set lane none
  let pass := passLines cleared lane
  match commit.parentHashes with
  | [] => (cleared, ⟨commit, ⟨lane, laneColor lane, pass⟩⟩)
  | firstParent :: rest =>
      let fp := wireFirstParent cleared lane firstParent
      let ep := wireExtraParents fp.1 lane rest
      (ep.1, ⟨commit, ⟨lane, laneColor lane, pass ++ fp.2 ++ ep.2⟩⟩)

/-- assignLanes from a given initial track (the source starts from []). -/
def assignLanesFrom (lanes : Track) : List GraphCommitInfo → List GraphRow
  | [] => []
  | c :: cs =>
      let s := stepCommit lanes c
      s.2 :: assignLanesFrom s.1 cs

/-- Source assignLanes. -/
def assignLanes (commits : List GraphCommitInfo) : List GraphRow :=
  assignLanesFrom [] commits

/-- Source getMaxLane: running maximum over each row's lane and each
line's fromLane and toLane, starting from 0. -/
def getMaxLane (rows : List GraphRow) : Nat :=
  rows.foldl
    (fun m row =>
      row.laneData.lines.foldl
        (fun m2 line => max (max m2 line.fromLane) line.toLane)
        (max m row.laneData.lane))
    0

/-- assignLanes instrumented to pair every row with the track as it
stands at the end of that row's processing. -/
def assignLanesTracked (lanes : Track) : List GraphCommitInfo → List (GraphRow × Track)
  | [] => []
  | c :: cs =>
      let s := stepCommit lanes c
      (s.2, s.1) :: assignLanesTracked s.1 cs

/-- Track states passed through by one additional parent: the some-branch
mutates nothing; the none-branch grows the array (when needed) and then
writes the parent hash into the allocated slot. -/
def extraParentStates (lanes : Track) (parentHash : String) : List Track :=
  match findLane lanes parentHash with
  | some _ => []
  | none =>
      let newLane := findFreeLane lanes
      let grown := if newLane < lanes.length then lanes else lanes ++ [none]
      [grown, grown.set newLane (some parentHash)]

/-- Track states passed through while wiring the additional parents. -/
def extraStates (lanes : Track) (lane : Nat) : List String → List Track
  | [] => []
  | p :: ps =>
      let s := wireExtraParent lanes lane p
      extraParentStates lanes p ++ extraStates s.1 lane ps

/-- All track states passed through while processing one commit: after
lane resolution (with its possible push), after clearing the slot, after
first-parent wiring, and after each additional-parent mutation. -/
def stepStates (lanes : Track) (commit : GraphCommitInfo) : List Track :=
  let r := resolveLane lanes commit.hash
  let lane := r.1
  let cleared := r.2.set lane none
  match commit.parentHashes with
  | [] => [r.2, cleared]
  | firstParent :: rest =>
      let fp := wireFirstParent cleared lane firstParent
      r.2 :: cleared :: fp.1 :: extraStates fp.1 lane rest

/-- Every track state of a whole assignLanes pass, the initial state and
every intermediate state of every commit included. -/
def laneTrace (lanes : Track) : List GraphCommitInfo → List Track
  | [] => [lanes]
  | c :: cs => lanes :: (stepStates lanes c ++ laneTrace (stepCommit lanes c).1 cs)

/-- No two slots expect the same commit hash. -/
def DistinctSomes (lanes : Track) : Prop :=
  ∀ (i j : Nat) (h : String), i ≠ j →
    lanes[i]? = some (some h) → lanes[j]? ≠ some (some h)

/-- The lane values a line contributes to the maximum. -/
def lineLaneValues (line : LineDef) : List Nat :=
  [line.fromLane, line.toLane]

/-- The lane values a row contributes to the maximum. -/
def rowLaneValues (row : GraphRow) : List Nat :=
  row.laneData.lane :: row.laneData.lines.flatMap lineLaneValues

/-- Every lane index appearing anywhere in the rows. -/
def allLaneValues (rows : List GraphRow) : List Nat :=
  rows.flatMap rowLaneValues

/-- Spec-side definition, following the spec's words: the highest lane or
line endpoint index appearing anywhere in the produced rows (0 when there
is none). -/
def maxLaneSpec (rows : List GraphRow) : Nat :=
  (allLaneValues rows).foldr max 0

/-- Folding max from an accumulator equals max of the accumulator with the
fold from 0. -/
theorem foldl_max_eq (l : List Nat) (a : Nat) : l.foldl max a = max a (l.foldr max 0) := by
  induction l generalizing a with
  | nil => simp
  | cons x xs ih => simp [List.foldl_cons, List.foldr_cons, ih (max a x), Nat.max_assoc]

/-- The inner loop of getMaxLane folds max over each line's two endpoints. -/
theorem foldl_lineMax_eq (lines : List LineDef) (a : Nat) :
    lines.foldl (fun m2 line => max (max m2 line.fromLane) line.toLane) a
      = (lines.flatMap lineLaneValues).foldl max a := by
  induction lines generalizing a with
  | nil => rfl
  | cons x xs ih => simp [lineLaneValues, List.foldl_append, ih]

/-- The outer loop of getMaxLane folds max over all collected lane values. -/
theorem foldl_rowMax_eq (rows : List GraphRow) (a : Nat) :
    rows.foldl
      (fun m row =>
        row.laneData.lines.foldl
          (fun m2 line => max (max m2 line.fromLane) line.toLane)
          (max m row.laneData.lane)) a
      = (rows.flatMap rowLaneValues).foldl max a := by
  induction rows generalizing a with
  | nil => rfl
  | cons r rs ih =>
      rw [List.foldl_cons, ih, foldl_lineMax_eq]
      simp [rowLaneValues, List.foldl_append]

/-- Every index below findFreeLane is occupied. -/
theorem findFreeLane_not_free_below (lanes : Track) :
    ∀ j < findFreeLane lanes, lanes[j]? ≠ some none := by
  induction lanes with
  | nil => intro j hj; simp [findFreeLane] at hj
  | cons s rest ih =>
      cases s with
      | none => intro j hj; simp [findFreeLane] at hj
      | some x =>
          intro j hj
          cases j with
          | zero => simp
          | succ j =>
              simp only [findFreeLane] at hj
              simpa using ih j (by omega)

/-- findFreeLane never runs past the end of the array. -/
theorem findFreeLane_le (lanes : Track) : findFreeLane lanes ≤ lanes.length := by
  induction lanes with
  | nil => simp [findFreeLane]
  | cons s rest ih =>
      cases s with
      | none => simp [findFreeLane]
      | some x =>
          simp only [findFreeLane, List.length_cons]
          omega

/-- When findFreeLane lands inside the array, that slot is free. -/
theorem findFreeLane_free (lanes : Track) (h : findFreeLane lanes < lanes.length) :
    lanes[findFreeLane lanes]? = some none := by
  induction lanes with
  | nil => simp [findFreeLane] at h
  | cons s rest ih =>
      cases s with
      | none => simp [findFreeLane]
      | some x =>
          simp only [findFreeLane, List.length_cons] at h ⊢
          simpa using ih (by omega)

/-- A found lane is a valid index. -/
theorem findLane_some_lt (lanes : Track) (hash : String) (i : Nat)
    (h : findLane lanes hash = some i) : i < lanes.length := by
  induction lanes generalizing i with
  | nil => simp [findLane] at h
  | cons s rest ih =>
      simp only [findLane] at h
      by_cases hs : s = some hash
      · simp [hs] at h
        simp only [List.length_cons]
        omega
      · simp only [hs, if_neg, Option.map_eq_some', if_false] at h
        obtain ⟨j, hj, rfl⟩ := h
        have := ih j hj
        simp only [List.length_cons]
        omega

/-- The slot found by findLane holds the searched hash. -/
theorem findLane_some_get (lanes : Track) (hash : String) (i : Nat)
    (h : findLane lanes hash = some i) : lanes[i]? = some (some hash) := by
  induction lanes generalizing i with
  | nil => simp [findLane] at h
  | cons s rest ih =>
      simp only [findLane] at h
      by_cases hs : s = some hash
      · simp [hs] at h; subst h; simp [hs]
      · simp only [hs, if_neg, Option.map_eq_some', if_false] at h
        obtain ⟨j, hj, rfl⟩ := h
        simpa using ih j hj

/-- When findLane fails, no slot holds the searched hash. -/
theorem findLane_none_get (lanes : Track) (hash : String)
    (h : findLane lanes hash = none) : ∀ i : Nat, lanes[i]? ≠ some (some hash) := by
  induction lanes with
  | nil => intro i; simp
  | cons s rest ih =>
      simp only [findLane] at h
      by_cases hs : s = some hash
      · simp [hs] at h
      · simp only [hs, if_false, Option.map_eq_none'] at h
        intro i
        cases i with
        | zero => simpa using hs
        | succ i => simpa using ih h i

/-- C2: on the merge scenario [M(parents=[P1,P2]), P1(parents=[B]),
P2(parents=[B]), B(parents=[])], assignLanes places M at lane 0 with a
straight line 0 to 0 and a fork-right 0 to 1, P1 at lane 0 with a
pass-through 1 to 1 and a straight 0 to 0, P2 at lane 1 with a
pass-through 0 to 0 and a merge-left 1 to 0, B at lane 0 with no lines,
and getMaxLane of the rows is 1. -/
theorem c2_merge_scenario :
    assignLanes [⟨"M", ["P1", "P2"]⟩, ⟨"P1", ["B"]⟩, ⟨"P2", ["B"]⟩, ⟨"B", []⟩] =
      [⟨⟨"M", ["P1", "P2"]⟩,
        ⟨0, laneColor 0,
         [⟨0, 0, laneColor 0, LineType.straight⟩,
          ⟨0, 1, laneColor 1, LineType.forkRight⟩]⟩⟩,
       ⟨⟨"P1", ["B"]⟩,
        ⟨0, laneColor 0,
         [⟨1, 1, laneColor 1, LineType.straight⟩,
          ⟨0, 0, laneColor 0, LineType.straight⟩]⟩⟩,
       ⟨⟨"P2", ["B"]⟩,
        ⟨1, laneColor 1,
         [⟨0, 0, laneColor 0, LineType.straight⟩,
          ⟨1, 0, laneColor 0, LineType.mergeLeft⟩]⟩⟩,
       ⟨⟨"B", []⟩, ⟨0, laneColor 0, []⟩⟩] ∧
    getMaxLane
      (assignLanes [⟨"M", ["P1", "P2"]⟩, ⟨"P1", ["B"]⟩, ⟨"P2", ["B"]⟩, ⟨"B", []⟩]) = 1 :=
  ⟨by decide, by decide⟩

/-- C9: a fork line whose endpoints coincide does occur: after A's second
parent P1 takes lane 1, M resolves to lane 2, merges its first parent
into lane 1 (freeing lane 2), and the lowest-free allocation for its
unclaimed second parent reuses lane 2, producing fork-right 2 to 2. -/
theorem c9_fork_to_own_lane :
    ∃ row ∈ assignLanes [⟨"A", ["B", "P1"]⟩, ⟨"M", ["P1", "Q"]⟩],
      ∃ line ∈ row.laneData.lines,
        line.type = LineType.forkRight ∧ line.fromLane = line.toLane := by
  decide

/-- C1 counterexample: on the single merge commit M(parents=[P1,P2]) the
produced row holds two lines with fromLane 0 (the first-parent straight
line and the fork for the second parent), so the fromLane values of one
row's lines are not pairwise distinct. -/
theorem c1_counterexample :
    ∃ row ∈ assignLanes [⟨"M", ["P1", "P2"]⟩],
      ¬ (row.laneData.lines.map LineDef.fromLane).Nodup := by
  decide

/-- C6 counterexample: on M(parents=[P,P]) the duplicated parent is found
in the commit's own lane after first-parent wiring, so the second-parent
pass emits a merge-right line from lane 0 to lane 0, whose toLane is not
greater than its fromLane. -/
theorem c6_counterexample :
    ∃ row ∈ assignLanes [⟨"M", ["P", "P"]⟩],
      ∃ line ∈ row.laneData.lines,
        line.type = LineType.mergeRight ∧ ¬ line.fromLane < line.toLane := by
  decide

/-- C5: getMaxLane equals the maximum (0 when there is none) over all
rows of the row's lane and every line's fromLane and toLane, and the
empty input yields empty rows with getMaxLane 0. -/
theorem c5_getMaxLane_max :
    (∀ rows : List GraphRow, getMaxLane rows = maxLaneSpec rows) ∧
    assignLanes [] = [] ∧ getMaxLane (assignLanes []) = 0 ∧ getMaxLane [] = 0 := by
  refine ⟨fun rows => ?_, rfl, rfl, rfl⟩
  rw [getMaxLane, foldl_rowMax_eq, maxLaneSpec, allLaneValues, foldl_max_eq]
  simp

/-- C4: a commit expected by no lane receives findFreeLane lanes, which is
the smallest free index, is at most the track length, and equals the track
length exactly when no slot is free, in which case a fresh slot is
appended; an unclaimed additional parent is allocated by the very same
findFreeLane rule. -/
theorem c4_lowest_free_allocation (lanes : Track) (c : GraphCommitInfo)
    (lane : Nat) (p : String)
    (hc : findLane lanes c.hash = none) (hp : findLane lanes p = none) :
    (stepCommit lanes c).2.laneData.lane = findFreeLane lanes ∧
    (wireExtraParent lanes lane p).2.toLane = findFreeLane lanes ∧
    (∀ j < findFreeLane lanes, lanes[j]? ≠ some none) ∧
    findFreeLane lanes ≤ lanes.length ∧
    (findFreeLane lanes < lanes.length → lanes[findFreeLane lanes]? = some none) ∧
    (findFreeLane lanes = lanes.length → (resolveLane lanes c.hash).2 = lanes ++ [none]) := by
  refine ⟨?_, ?_, findFreeLane_not_free_below lanes, findFreeLane_le lanes,
    findFreeLane_free lanes, ?_⟩
  · cases hps : c.parentHashes <;> simp [stepCommit, resolveLane, hc, hps]
  · simp [wireExtraParent, hp]
  · intro hlen
    simp [resolveLane, hc, hlen]

/-- Witness for C4 at the track [some "A"] with commit "N" and extra
parent "Q", both unknown to the track. -/
theorem c4_witness :
    findLane [some "A"] "N" = none ∧ findLane [some "A"] "Q" = none ∧
    ((stepCommit [some "A"] ⟨"N", []⟩).2.laneData.lane = findFreeLane [some "A"] ∧
     (wireExtraParent [some "A"] 0 "Q").2.toLane = findFreeLane [some "A"] ∧
     (∀ j < findFreeLane [some "A"], ([some "A"] : Track)[j]? ≠ some none) ∧
     findFreeLane [some "A"] ≤ ([some "A"] : Track).length ∧
     (findFreeLane [some "A"] < ([some "A"] : Track).length →
       ([some "A"] : Track)[findFreeLane [some "A"]]? = some none) ∧
     (findFreeLane [some "A"] = ([some "A"] : Track).length →
       (resolveLane [some "A"] "N").2 = [some "A"] ++ [none])) :=
  ⟨by decide, by decide,
   c4_lowest_free_allocation [some "A"] ⟨"N", []⟩ 0 "Q" (by decide) (by decide)⟩

/-- C7: the branch of first-parent wiring for a parent already expected in
the commit's own lane and the branch for a parent expected nowhere produce
the identical result: the slot is set to expect the first parent and one
straight line from the lane to itself is emitted, so the commit keeps its
lane either way. -/
theorem c7_reclaim_idempotent (lanes : Track) (lane : Nat) (firstParent : String)
    (h : findLane lanes firstParent = some lane ∨ findLane lanes firstParent = none) :
    wireFirstParent lanes lane firstParent =
      (lanes.set lane (some firstParent),
       [⟨lane, lane, laneColor lane, LineType.straight⟩]) := by
  rcases h with h | h <;> simp [wireFirstParent, h]

/-- Witness for C7 at the concrete track [some "X"], lane 0, parent "P". -/
theorem c7_witness :
    (findLane [some "X"] "P" = some 0 ∨ findLane [some "X"] "P" = none) ∧
    wireFirstParent [some "X"] 0 "P" =
      (([some "X"] : Track).set 0 (some "P"),
       [⟨0, 0, laneColor 0, LineType.straight⟩]) :=
  ⟨Or.inr (by decide), c7_reclaim_idempotent [some "X"] 0 "P" (Or.inr (by decide))⟩

/-- Writing a value that is either none or a hash expected by no slot
preserves distinctness of the expected hashes. -/
theorem set_preserves_distinct {lanes : Track} (hd : DistinctSomes lanes) (k : Nat)
    (v : Option String)
    (hv : ∀ x : String, v = some x → ∀ i : Nat, lanes[i]? ≠ some (some x)) :
    DistinctSomes (lanes.set k v) := by
  intro i j h hij hi hj
  rw [List.getElem?_set] at hi hj
  by_cases hki : k = i
  · rw [if_pos hki] at hi
    by_cases hkl : k < lanes.length
    · rw [if_pos hkl] at hi
      have hv' : v = some h := by injection hi
      have hkj : ¬ k = j := fun hkj => hij (hki.symm.trans hkj)
      rw [if_neg hkj] at hj
      exact hv h hv' j hj
    · rw [if_neg hkl] at hi
      simp at hi
  · rw [if_neg hki] at hi
    by_cases hkj : k = j
    · rw [if_pos hkj] at hj
      by_cases hkl : k < lanes.length
      · rw [if_pos hkl] at hj
        have hv' : v = some h := by injection hj
        exact hv h hv' i hi
      · rw [if_neg hkl] at hj
        simp at hj
    · rw [if_neg hkj] at hj
      exact hd i j h hij hi hj

/-- Appending a free slot preserves distinctness. -/
theorem append_none_preserves_distinct {lanes : Track} (hd : DistinctSomes lanes) :
    DistinctSomes (lanes ++ [none]) := by
  have hne : ∀ (h : String) (m : Nat), ([none] : Track)[m]? ≠ some (some h) := by
    intro h m
    cases m <;> simp
  intro i j h hij hi hj
  rw [List.getElem?_append] at hi hj
  by_cases h1 : i < lanes.length
  · rw [if_pos h1] at hi
    by_cases h2 : j < lanes.length
    · rw [if_pos h2] at hj
      exact hd i j h hij hi hj
    · rw [if_neg h2] at hj
      exact hne h _ hj
  · rw [if_neg h1] at hi
    exact hne h _ hi

/-- Lane resolution (with its possible push of a free slot) preserves
distinctness. -/
theorem resolveLane_preserves_distinct {lanes : Track} (hash : String)
    (hd : DistinctSomes lanes) : DistinctSomes (resolveLane lanes hash).2 := by
  unfold resolveLane
  cases hf : findLane lanes hash with
  | some l => exact hd
  | none =>
      by_cases hlt : findFreeLane lanes < lanes.length
      · simpa [hlt] using hd
      · simpa [hlt] using append_none_preserves_distinct hd


/-- The resolved lane is a valid index of the resolved track. -/
theorem resolveLane_lane_lt (lanes : Track) (hash : String) :
    (resolveLane lanes hash).1 < (resolveLane lanes hash).2.length := by
  unfold resolveLane
  cases hf : findLane lanes hash with
  | some l => simpa using findLane_some_lt lanes hash l hf
  | none =>
      have hle := findFreeLane_le lanes
      by_cases hlt : findFreeLane lanes < lanes.length
      · simp [hlt]
      · simp only [hlt, if_neg, if_false, List.length_append, List.length_cons,
          List.length_nil]
        omega

/-- First-parent wiring from a track whose own slot is cleared preserves
distinctness. -/
theorem wireFirstParent_preserves_distinct {lanes : Track} (lane : Nat) (fp : String)
    (hd : DistinctSomes lanes) (hfree : lanes[lane]? = some none) :
    DistinctSomes (wireFirstParent lanes lane fp).1 := by
  unfold wireFirstParent
  cases hf : findLane lanes fp with
  | none =>
      exact set_preserves_distinct hd lane (some fp) fun x hx i hxi => by
        injection hx with hx
        exact findLane_none_get lanes fp hf i (hx ▸ hxi)
  | some el =>
      by_cases hel : el = lane
      · have hget := findLane_some_get lanes fp el hf
        rw [hel, hfree] at hget
        simp at hget
      · simp only [hel, if_neg, if_false]
        exact set_preserves_distinct hd lane none fun x hx => by simp at hx

/-- One additional parent preserves distinctness, at the two intermediate
states of its allocation as well. -/
theorem extraParent_distinct {lanes : Track} (lane : Nat) (p : String)
    (hd : DistinctSomes lanes) :
    (∀ st ∈ extraParentStates lanes p, DistinctSomes st) ∧
    DistinctSomes (wireExtraParent lanes lane p).1 := by
  unfold extraParentStates wireExtraParent
  cases hf : findLane lanes p with
  | some pl => exact ⟨by simp, hd⟩
  | none =>
      have hgrown : DistinctSomes
          (if findFreeLane lanes < lanes.length then lanes else lanes ++ [none]) := by
        by_cases hlt : findFreeLane lanes < lanes.length
        · simpa [hlt] using hd
        · simpa [hlt] using append_none_preserves_distinct hd
      have hng : ∀ i : Nat,
          (if findFreeLane lanes < lanes.length then lanes else lanes ++ [none])[i]? ≠
            some (some p) := by
        intro i
        by_cases hlt : findFreeLane lanes < lanes.length
        · simp only [if_pos hlt]
          exact findLane_none_get lanes p hf i
        · simp only [if_neg hlt]
          rw [List.getElem?_append]
          by_cases hi : i < lanes.length
          · rw [if_pos hi]
            exact findLane_none_get lanes p hf i
          · rw [if_neg hi]
            generalize i - lanes.length = m
            cases m <;> simp
      have hset : DistinctSomes
          ((if findFreeLane lanes < lanes.length then lanes else lanes ++ [none]).set
            (findFreeLane lanes) (some p)) :=
        set_preserves_distinct hgrown (findFreeLane lanes) (some p) fun x hx i hxi => by
          injection hx with hx
          exact hng i (hx ▸ hxi)
      refine ⟨?_, hset⟩
      intro st hst
      simp only [List.mem_cons, List.not_mem_nil, or_false] at hst
      rcases hst with rfl | rfl
      · exact hgrown
      · exact hset

/-- All additional parents preserve distinctness, at every intermediate
state as well. -/
theorem extraStates_distinct {lanes : Track} (lane : Nat) (ps : List String)
    (hd : DistinctSomes lanes) :
    (∀ st ∈ extraStates lanes lane ps, DistinctSomes st) ∧
    DistinctSomes (wireExtraParents lanes lane ps).1 := by
  induction ps generalizing lanes with
  | nil => exact ⟨by simp [extraStates], hd⟩
  | cons p ps ih =>
      obtain ⟨h1states, h1⟩ := extraParent_distinct lane p hd
      obtain ⟨ha, hb⟩ := ih h1
      constructor
      · intro st hst
        simp only [extraStates, List.mem_append] at hst
        rcases hst with h | h
        · exact h1states st h
        · exact ha st h
      · simpa [wireExtraParents] using hb

/-- Processing one commit preserves distinctness, at every intermediate
track state as well. -/
theorem stepStates_distinct {lanes : Track} (c : GraphCommitInfo)
    (hd : DistinctSomes lanes) :
    (∀ st ∈ stepStates lanes c, DistinctSomes st) ∧
    DistinctSomes (stepCommit lanes c).1 := by
  have hr2 : DistinctSomes (resolveLane lanes c.hash).2 :=
    resolveLane_preserves_distinct c.hash hd
  have hlt := resolveLane_lane_lt lanes c.hash
  have hcleared : DistinctSomes
      ((resolveLane lanes c.hash).2.set (resolveLane lanes c.hash).1 none) :=
    set_preserves_distinct hr2 _ none fun x hx => by simp at hx
  have hfree :
      ((resolveLane lanes c.hash).2.set (resolveLane lanes c.hash).1 none)[
        (resolveLane lanes c.hash).1]? = some none :=
    List.getElem?_set_self hlt
  cases hps : c.parentHashes with
  | nil =>
      constructor
      · intro st hst
        simp only [stepStates, hps, List.mem_cons, List.not_mem_nil, or_false] at hst
        rcases hst with rfl | rfl
        · exact hr2
        · exact hcleared
      · simpa [stepCommit, hps] using hcleared
  | cons fp rest =>
      have hfp : DistinctSomes
          (wireFirstParent
            ((resolveLane lanes c.hash).2.set (resolveLane lanes c.hash).1 none)
            (resolveLane lanes c.hash).1 fp).1 :=
        wireFirstParent_preserves_distinct _ fp hcleared hfree
      obtain ⟨hextra, hfinal⟩ := extraStates_distinct (resolveLane lanes c.hash).1 rest hfp
      constructor
      · intro st hst
        simp only [stepStates, hps, List.mem_cons, List.mem_append] at hst
        rcases hst with rfl | rfl | rfl | h
        · exact hr2
        · exact hcleared
        · exact hfp
        · exact hextra st h
      · simpa [stepCommit, hps] using hfinal

/-- Distinctness holds at every state of the whole trace. -/
theorem laneTrace_distinct {lanes : Track} (commits : List GraphCommitInfo)
    (hd : DistinctSomes lanes) : ∀ st ∈ laneTrace lanes commits, DistinctSomes st := by
  induction commits generalizing lanes with
  | nil =>
      intro st hst
      simp only [laneTrace, List.mem_singleton] at hst
      exact hst ▸ hd
  | cons c cs ih =>
      intro st hst
      simp only [laneTrace, List.mem_cons, List.mem_append] at hst
      rcases hst with rfl | h | h
      · exact hd
      · exact (stepStates_distinct c hd).1 st h
      · exact ih ((stepStates_distinct c hd).2) st h

/-- C3: at every track state passed through by an assignLanes pass, the
initial state and every per-mutation intermediate state included, no two
lane slots expect the same commit hash. -/
theorem c3_trace_distinct (commits : List GraphCommitInfo) (st : Track)
    (hst : st ∈ laneTrace [] commits) : DistinctSomes st :=
  laneTrace_distinct commits (fun i j h hij hi _ => by simp at hi) st hst

/-- Witness for C3 on the single merge commit M(parents=[P1,P2]): the
state expecting P1 and P2 occurs in the trace and is duplicate-free. -/
theorem c3_witness :
    [some "P1", some "P2"] ∈ laneTrace [] [⟨"M", ["P1", "P2"]⟩] ∧
    DistinctSomes [some "P1", some "P2"] :=
  ⟨by decide,
   c3_trace_distinct [⟨"M", ["P1", "P2"]⟩] [some "P1", some "P2"] (by decide)⟩

/-- Characterization of a pass-through line: straight, endpoints equal to
an occupied lane index other than the commit's own, lane-colored. -/
theorem passLines_mem {lanes : Track} {lane : Nat} {line : LineDef}
    (h : line ∈ passLines lanes lane) :
    line.type = LineType.straight ∧ line.toLane = line.fromLane ∧
    line.color = laneColor line.fromLane ∧ line.fromLane ≠ lane ∧
    line.fromLane < lanes.length := by
  simp only [passLines, List.mem_filterMap, List.mem_range] at h
  obtain ⟨i, hi, hline⟩ := h
  split at hline
  · split at hline
    · simp at hline
    · next hil =>
        injection hline with hline
        subst hline
        exact ⟨rfl, rfl, rfl, hil, hi⟩
  · simp at hline

/-- Pass-through lines come in strictly ascending fromLane order. -/
theorem passLines_pairwise (lanes : Track) (lane : Nat) :
    List.Pairwise (fun a b : LineDef => a.fromLane < b.fromLane)
      (passLines lanes lane) := by
  unfold passLines
  refine List.Pairwise.filterMap _ ?_ (List.pairwise_lt_range _)
  intro a b hab x hx y hy
  simp only [Option.mem_def] at hx hy
  have hxa : x.fromLane = a := by
    split at hx
    · split at hx
      · simp at hx
      · injection hx with hx
        subst hx
        rfl
    · simp at hx
  have hyb : y.fromLane = b := by
    split at hy
    · split at hy
      · simp at hy
      · injection hy with hy
        subst hy
        rfl
    · simp at hy
  rw [hxa, hyb]
  exact hab

/-- First-parent wiring leaves the track length unchanged. -/
theorem wireFirstParent_length (lanes : Track) (lane : Nat) (fp : String) :
    (wireFirstParent lanes lane fp).1.length = lanes.length := by
  unfold wireFirstParent
  cases hf : findLane lanes fp with
  | none => simp
  | some el => by_cases hel : el = lane <;> simp [hel]

/-- Characterization of the first-parent line: it leaves the commit's own
lane, is colored after its target lane, targets a valid index, and its
left/right type reflects the index comparison (right includes equality). -/
theorem wireFirstParent_lines {lanes : Track} {lane : Nat} {fp : String} {line : LineDef}
    (hlane : lane < lanes.length) (h : line ∈ (wireFirstParent lanes lane fp).2) :
    line.fromLane = lane ∧ line.color = laneColor line.toLane ∧
    line.toLane < lanes.length ∧
    ((line.type = LineType.mergeLeft ∨ line.type = LineType.forkLeft) →
      line.toLane < line.fromLane) ∧
    ((line.type = LineType.mergeRight ∨ line.type = LineType.forkRight) →
      line.fromLane ≤ line.toLane) := by
  cases hf : findLane lanes fp with
  | none =>
      simp only [wireFirstParent, hf, List.mem_singleton] at h
      subst h
      exact ⟨rfl, rfl, hlane, by rintro (ht | ht) <;> simp at ht,
             by rintro (ht | ht) <;> simp at ht⟩
  | some el =>
      simp only [wireFirstParent, hf] at h
      by_cases hel : el = lane
      · rw [if_pos hel] at h
        simp only [List.mem_singleton] at h
        subst h
        exact ⟨rfl, rfl, hlane, by rintro (ht | ht) <;> simp at ht,
               by rintro (ht | ht) <;> simp at ht⟩
      · rw [if_neg hel] at h
        simp only [List.mem_singleton] at h
        subst h
        have hlt := findLane_some_lt lanes fp el hf
        refine ⟨rfl, rfl, hlt, ?_, ?_⟩
        · intro ht
          by_cases h2 : el < lane
          · exact h2
          · rcases ht with ht | ht <;> simp [h2] at ht
        · intro ht
          by_cases h2 : el < lane
          · rcases ht with ht | ht <;> simp [h2] at ht
          · simp only []
            omega

/-- Wiring one additional parent never shrinks the track. -/
theorem wireExtraParent_length (lanes : Track) (lane : Nat) (p : String) :
    lanes.length ≤ (wireExtraParent lanes lane p).1.length := by
  unfold wireExtraParent
  cases hf : findLane lanes p with
  | some pl => simp
  | none =>
      simp only [List.length_set]
      by_cases hlt : findFreeLane lanes < lanes.length
      · simp [hlt]
      · simp [hlt]

/-- Characterization of one additional-parent line, relative to the track
it was produced from. -/
theorem wireExtraParent_line {lanes : Track} {lane : Nat} {p : String} :
    (wireExtraParent lanes lane p).2.fromLane = lane ∧
    (wireExtraParent lanes lane p).2.color =
      laneColor (wireExtraParent lanes lane p).2.toLane ∧
    (wireExtraParent lanes lane p).2.toLane < (wireExtraParent lanes lane p).1.length ∧
    (((wireExtraParent lanes lane p).2.type = LineType.mergeLeft ∨
      (wireExtraParent lanes lane p).2.type = LineType.forkLeft) →
      (wireExtraParent lanes lane p).2.toLane < (wireExtraParent lanes lane p).2.fromLane) ∧
    (((wireExtraParent lanes lane p).2.type = LineType.mergeRight ∨
      (wireExtraParent lanes lane p).2.type = LineType.forkRight) →
      (wireExtraParent lanes lane p).2.fromLane ≤ (wireExtraParent lanes lane p).2.toLane) := by
  cases hf : findLane lanes p with
  | some pl =>
      have hlt := findLane_some_lt lanes p pl hf
      have hEq : wireExtraParent lanes lane p =
          (lanes, ⟨lane, pl, laneColor pl,
            if pl < lane then LineType.mergeLeft else LineType.mergeRight⟩) := by
        unfold wireExtraParent
        rw [hf]
      rw [hEq]
      refine ⟨rfl, rfl, hlt, ?_, ?_⟩
      · intro ht
        by_cases h2 : pl < lane
        · exact h2
        · rcases ht with ht | ht <;> simp [h2] at ht
      · intro ht
        by_cases h2 : pl < lane
        · rcases ht with ht | ht <;> simp [h2] at ht
        · show lane ≤ pl
          omega
  | none =>
      have hle := findFreeLane_le lanes
      have hEq : wireExtraParent lanes lane p =
          ((if findFreeLane lanes < lanes.length then lanes else lanes ++ [none]).set
            (findFreeLane lanes) (some p),
           ⟨lane, findFreeLane lanes, laneColor (findFreeLane lanes),
            if findFreeLane lanes < lane then LineType.forkLeft
            else LineType.forkRight⟩) := by
        unfold wireExtraParent
        rw [hf]
      have hnew : findFreeLane lanes <
          (if findFreeLane lanes < lanes.length then lanes else lanes ++ [none]).length := by
        by_cases hlt : findFreeLane lanes < lanes.length
        · simp [hlt]
        · simp only [hlt, if_neg, if_false, List.length_append, List.length_cons,
            List.length_nil]
          omega
      rw [hEq]
      refine ⟨rfl, rfl, ?_, ?_, ?_⟩
      · rw [List.length_set]
        exact hnew
      · intro ht
        by_cases h2 : findFreeLane lanes < lane
        · exact h2
        · rcases ht with ht | ht <;> simp [h2] at ht
      · intro ht
        by_cases h2 : findFreeLane lanes < lane
        · rcases ht with ht | ht <;> simp [h2] at ht
        · show lane ≤ findFreeLane lanes
          omega

/-- Additional-parent wiring: the track never shrinks, and every emitted
line leaves the commit's lane, is target-colored, targets a valid index of
the final track, and is typed by the index comparison. -/
theorem wireExtraParents_lines {ps : List String} {lanes : Track} {lane : Nat}
    (hlane : lane < lanes.length) :
    lanes.length ≤ (wireExtraParents lanes lane ps).1.length ∧
    ∀ line ∈ (wireExtraParents lanes lane ps).2,
      line.fromLane = lane ∧ line.color = laneColor line.toLane ∧
      line.toLane < (wireExtraParents lanes lane ps).1.length ∧
      ((line.type = LineType.mergeLeft ∨ line.type = LineType.forkLeft) →
        line.toLane < line.fromLane) ∧
      ((line.type = LineType.mergeRight ∨ line.type = LineType.forkRight) →
        line.fromLane ≤ line.toLane) := by
  induction ps generalizing lanes with
  | nil =>
      exact ⟨Nat.le_refl _, by simp [wireExtraParents]⟩
  | cons p ps ih =>
      have hmono := wireExtraParent_length lanes lane p
      have hline := @wireExtraParent_line lanes lane p
      have hlane2 : lane < (wireExtraParent lanes lane p).1.length :=
        Nat.lt_of_lt_of_le hlane hmono
      obtain ⟨ihlen, ihlines⟩ := ih hlane2
      constructor
      · simp only [wireExtraParents]
        exact Nat.le_trans hmono ihlen
      · intro line hmem
        simp only [wireExtraParents, List.mem_cons] at hmem
        rcases hmem with rfl | hmem
        · obtain ⟨h1, h2, h3, h4, h5⟩ := hline
          exact ⟨h1, h2, by simpa using Nat.lt_of_lt_of_le h3 ihlen, h4, h5⟩
        · simpa using ihlines line hmem

/-- Every line of one processed row: target-colored, endpoints valid in
the track at the end of the row, and typed by the index comparison. -/
theorem stepCommit_lines {lanes : Track} {c : GraphCommitInfo} {line : LineDef}
    (h : line ∈ (stepCommit lanes c).2.laneData.lines) :
    line.color = laneColor line.toLane ∧
    line.fromLane < (stepCommit lanes c).1.length ∧
    line.toLane < (stepCommit lanes c).1.length ∧
    ((line.type = LineType.mergeLeft ∨ line.type = LineType.forkLeft) →
      line.toLane < line.fromLane) ∧
    ((line.type = LineType.mergeRight ∨ line.type = LineType.forkRight) →
      line.fromLane ≤ line.toLane) := by
  have hlt := resolveLane_lane_lt lanes c.hash
  have hlane :
      (resolveLane lanes c.hash).1 <
        ((resolveLane lanes c.hash).2.set (resolveLane lanes c.hash).1 none).length := by
    simpa using hlt
  cases hps : c.parentHashes with
  | nil =>
      simp only [stepCommit, hps] at h ⊢
      obtain ⟨h1, h2, h3, h4, h5⟩ := passLines_mem h
      refine ⟨by rw [h3, h2], by simpa using h5, by simpa [h2] using h5, ?_, ?_⟩ <;>
        rintro (ht | ht) <;> rw [h1] at ht <;> simp at ht
  | cons fp rest =>
      simp only [stepCommit, hps] at h ⊢
      have hlanefp :
          (resolveLane lanes c.hash).1 <
            (wireFirstParent
              ((resolveLane lanes c.hash).2.set (resolveLane lanes c.hash).1 none)
              (resolveLane lanes c.hash).1 fp).1.length := by
        rw [wireFirstParent_length]
        exact hlane
      obtain ⟨hmono, hlines⟩ := @wireExtraParents_lines rest _ _ hlanefp
      have hfinal :
          ((resolveLane lanes c.hash).2.set (resolveLane lanes c.hash).1 none).length ≤
            (wireExtraParents
              (wireFirstParent
                ((resolveLane lanes c.hash).2.set (resolveLane lanes c.hash).1 none)
                (resolveLane lanes c.hash).1 fp).1
              (resolveLane lanes c.hash).1 rest).1.length := by
        rw [← wireFirstParent_length
          ((resolveLane lanes c.hash).2.set (resolveLane lanes c.hash).1 none)
          (resolveLane lanes c.hash).1 fp]
        exact hmono
      rw [List.mem_append, List.mem_append] at h
      rcases h with (h | h) | h
      · obtain ⟨h1, h2, h3, h4, h5⟩ := passLines_mem h
        refine ⟨by rw [h3, h2], ?_, ?_, ?_, ?_⟩
        · exact Nat.lt_of_lt_of_le h5 hfinal
        · rw [h2]
          exact Nat.lt_of_lt_of_le h5 hfinal
        all_goals rintro (ht | ht) <;> rw [h1] at ht <;> simp at ht
      · obtain ⟨h1, h2, h3, h4, h5⟩ := wireFirstParent_lines hlane h
        refine ⟨h2, ?_, ?_, h4, h5⟩
        · rw [h1]
          exact Nat.lt_of_lt_of_le hlane hfinal
        · exact Nat.lt_of_lt_of_le h3 hfinal
      · obtain ⟨h1, h2, h3, h4, h5⟩ := hlines line h
        refine ⟨h2, ?_, h3, h4, h5⟩
        rw [h1]
        exact Nat.lt_of_lt_of_le hlanefp hmono

/-- Within one row, pass-through lines carry pairwise distinct fromLanes
and every parent-wiring line starts at the commit's own lane, so two
lines of a row can only share a fromLane when it is the row's lane. -/
theorem stepCommit_pairwise (lanes : Track) (c : GraphCommitInfo) :
    List.Pairwise
      (fun a b : LineDef => a.fromLane = b.fromLane →
        a.fromLane = (stepCommit lanes c).2.laneData.lane)
      (stepCommit lanes c).2.laneData.lines := by
  have hlt := resolveLane_lane_lt lanes c.hash
  have hlane : (resolveLane lanes c.hash).1 <
      ((resolveLane lanes c.hash).2.set (resolveLane lanes c.hash).1 none).length := by
    simpa using hlt
  have hpassPW := passLines_pairwise
    ((resolveLane lanes c.hash).2.set (resolveLane lanes c.hash).1 none)
    (resolveLane lanes c.hash).1
  cases hps : c.parentHashes with
  | nil =>
      simp only [stepCommit, hps]
      exact List.Pairwise.imp
        (fun hab heq => absurd heq (Nat.ne_of_lt hab)) hpassPW
  | cons fp rest =>
      simp only [stepCommit, hps]
      have hlanefp :
          (resolveLane lanes c.hash).1 <
            (wireFirstParent
              ((resolveLane lanes c.hash).2.set (resolveLane lanes c.hash).1 none)
              (resolveLane lanes c.hash).1 fp).1.length := by
        rw [wireFirstParent_length]
        exact hlane
      obtain ⟨_, hlines⟩ := @wireExtraParents_lines rest _ _ hlanefp
      have hfpf :
          ∀ x ∈ (wireFirstParent
              ((resolveLane lanes c.hash).2.set (resolveLane lanes c.hash).1 none)
              (resolveLane lanes c.hash).1 fp).2,
            x.fromLane = (resolveLane lanes c.hash).1 :=
        fun x hx => (wireFirstParent_lines hlane hx).1
      have hepf :
          ∀ x ∈ (wireExtraParents
              (wireFirstParent
                ((resolveLane lanes c.hash).2.set (resolveLane lanes c.hash).1 none)
                (resolveLane lanes c.hash).1 fp).1
              (resolveLane lanes c.hash).1 rest).2,
            x.fromLane = (resolveLane lanes c.hash).1 :=
        fun x hx => (hlines x hx).1
      rw [List.pairwise_append]
      refine ⟨?_, ?_, ?_⟩
      · rw [List.pairwise_append]
        refine ⟨List.Pairwise.imp
            (fun hab heq => absurd heq (Nat.ne_of_lt hab)) hpassPW, ?_, ?_⟩
        · exact List.pairwise_of_forall_mem_list
            (fun a ha b hb => fun _ => hfpf a ha)
        · exact fun a ha b hb heq => heq.trans (hfpf b hb)
      · exact List.pairwise_of_forall_mem_list
          (fun a ha b hb => fun _ => hepf a ha)
      · exact fun a ha b hb heq => heq.trans (hepf b hb)

/-- Every row of assignLanesFrom is produced by stepCommit from some
track, so a per-row property of stepCommit holds of every row. -/
theorem assignLanesFrom_rows {P : GraphRow → Prop}
    (hstep : ∀ (lanes : Track) (c : GraphCommitInfo), P (stepCommit lanes c).2) :
    ∀ (lanes : Track) (commits : List GraphCommitInfo),
      ∀ row ∈ assignLanesFrom lanes commits, P row := by
  intro lanes commits
  induction commits generalizing lanes with
  | nil =>
      intro row hrow
      simp [assignLanesFrom] at hrow
  | cons c cs ih =>
      intro row hrow
      simp only [assignLanesFrom, List.mem_cons] at hrow
      rcases hrow with rfl | h
      · exact hstep lanes c
      · exact ih _ row h

/-- Dropping the tracks from the instrumented pass gives assignLanesFrom. -/
theorem assignLanesTracked_map_fst (lanes : Track) (commits : List GraphCommitInfo) :
    (assignLanesTracked lanes commits).map Prod.fst = assignLanesFrom lanes commits := by
  induction commits generalizing lanes with
  | nil => rfl
  | cons c cs ih => simp [assignLanesTracked, assignLanesFrom, ih]

/-- Every row-track pair of the instrumented pass is a stepCommit result. -/
theorem assignLanesTracked_mem {lanes : Track} {commits : List GraphCommitInfo}
    {pr : GraphRow × Track} (h : pr ∈ assignLanesTracked lanes commits) :
    ∃ (lanes0 : Track) (c : GraphCommitInfo),
      pr = ((stepCommit lanes0 c).2, (stepCommit lanes0 c).1) := by
  induction commits generalizing lanes with
  | nil => simp [assignLanesTracked] at h
  | cons c cs ih =>
      simp only [assignLanesTracked, List.mem_cons] at h
      rcases h with rfl | h
      · exact ⟨lanes, c, rfl⟩
      · exact ih h

/-- C1 (amended): in every produced row, no two lines share a fromLane
unless that shared fromLane is the row's own lane (a multi-parent commit
emits several lines from its own lane; pass-through lines have pairwise
distinct fromLanes different from the row's lane). -/
theorem c1_no_duplicate_fromLane_amended (commits : List GraphCommitInfo) :
    ∀ row ∈ assignLanes commits,
      List.Pairwise
        (fun a b : LineDef => a.fromLane = b.fromLane → a.fromLane = row.laneData.lane)
        row.laneData.lines :=
  @assignLanesFrom_rows
    (fun row =>
      List.Pairwise
        (fun a b : LineDef => a.fromLane = b.fromLane → a.fromLane = row.laneData.lane)
        row.laneData.lines)
    stepCommit_pairwise [] commits

/-- Witness for amended C1 on the single merge commit M(parents=[P1,P2]). -/
theorem c1_amended_witness :
    ((⟨⟨"M", ["P1", "P2"]⟩,
       ⟨0, laneColor 0,
        [⟨0, 0, laneColor 0, LineType.straight⟩,
         ⟨0, 1, laneColor 1, LineType.forkRight⟩]⟩⟩ : GraphRow) ∈
      assignLanes [⟨"M", ["P1", "P2"]⟩]) ∧
    List.Pairwise
      (fun a b : LineDef => a.fromLane = b.fromLane →
        a.fromLane =
          (⟨⟨"M", ["P1", "P2"]⟩,
            ⟨0, laneColor 0,
             [⟨0, 0, laneColor 0, LineType.straight⟩,
              ⟨0, 1, laneColor 1, LineType.forkRight⟩]⟩⟩ : GraphRow).laneData.lane)
      (⟨⟨"M", ["P1", "P2"]⟩,
        ⟨0, laneColor 0,
         [⟨0, 0, laneColor 0, LineType.straight⟩,
          ⟨0, 1, laneColor 1, LineType.forkRight⟩]⟩⟩ : GraphRow).laneData.lines :=
  ⟨by decide,
   c1_no_duplicate_fromLane_amended [⟨"M", ["P1", "P2"]⟩] _ (by decide)⟩

/-- C6 (amended): merge-left and fork-left lines always have
toLane < fromLane; merge-right and fork-right lines have
fromLane ≤ toLane, where equality does occur (duplicate parent hashes,
or a fork reallocating the commit's own freed lane). -/
theorem c6_direction_amended (commits : List GraphCommitInfo) :
    ∀ row ∈ assignLanes commits, ∀ line ∈ row.laneData.lines,
      ((line.type = LineType.mergeLeft ∨ line.type = LineType.forkLeft) →
        line.toLane < line.fromLane) ∧
      ((line.type = LineType.mergeRight ∨ line.type = LineType.forkRight) →
        line.fromLane ≤ line.toLane) :=
  @assignLanesFrom_rows
    (fun row => ∀ line ∈ row.laneData.lines,
      ((line.type = LineType.mergeLeft ∨ line.type = LineType.forkLeft) →
        line.toLane < line.fromLane) ∧
      ((line.type = LineType.mergeRight ∨ line.type = LineType.forkRight) →
        line.fromLane ≤ line.toLane))
    (fun _ _ _ hline =>
      ⟨(stepCommit_lines hline).2.2.2.1, (stepCommit_lines hline).2.2.2.2⟩)
    [] commits

/-- Witness for amended C6 on the merge-right line of M(parents=[P,P]). -/
theorem c6_amended_witness :
    ((⟨⟨"M", ["P", "P"]⟩,
       ⟨0, laneColor 0,
        [⟨0, 0, laneColor 0, LineType.straight⟩,
         ⟨0, 0, laneColor 0, LineType.mergeRight⟩]⟩⟩ : GraphRow) ∈
      assignLanes [⟨"M", ["P", "P"]⟩]) ∧
    ((⟨0, 0, laneColor 0, LineType.mergeRight⟩ : LineDef) ∈
      (⟨⟨"M", ["P", "P"]⟩,
        ⟨0, laneColor 0,
         [⟨0, 0, laneColor 0, LineType.straight⟩,
          ⟨0, 0, laneColor 0, LineType.mergeRight⟩]⟩⟩ : GraphRow).laneData.lines) ∧
    ((((⟨0, 0, laneColor 0, LineType.mergeRight⟩ : LineDef).type = LineType.mergeLeft ∨
       (⟨0, 0, laneColor 0, LineType.mergeRight⟩ : LineDef).type = LineType.forkLeft) →
       (⟨0, 0, laneColor 0, LineType.mergeRight⟩ : LineDef).toLane <
         (⟨0, 0, laneColor 0, LineType.mergeRight⟩ : LineDef).fromLane) ∧
     (((⟨0, 0, laneColor 0, LineType.mergeRight⟩ : LineDef).type = LineType.mergeRight ∨
       (⟨0, 0, laneColor 0, LineType.mergeRight⟩ : LineDef).type = LineType.forkRight) →
       (⟨0, 0, laneColor 0, LineType.mergeRight⟩ : LineDef).fromLane ≤
         (⟨0, 0, laneColor 0, LineType.mergeRight⟩ : LineDef).toLane)) :=
  ⟨by decide, by decide,
   c6_direction_amended [⟨"M", ["P", "P"]⟩]
     ⟨⟨"M", ["P", "P"]⟩,
      ⟨0, laneColor 0,
       [⟨0, 0, laneColor 0, LineType.straight⟩,
        ⟨0, 0, laneColor 0, LineType.mergeRight⟩]⟩⟩ (by decide)
     ⟨0, 0, laneColor 0, LineType.mergeRight⟩ (by decide)⟩

/-- C8: every merge line (left or right, first-parent or additional) is
colored after its target lane, laneColor toLane, i.e.
LANE_COLORS[toLane % LANE_COLORS.length]. -/
theorem c8_merge_target_color (commits : List GraphCommitInfo) :
    ∀ row ∈ assignLanes commits, ∀ line ∈ row.laneData.lines,
      (line.type = LineType.mergeLeft ∨ line.type = LineType.mergeRight) →
        line.color = laneColor line.toLane :=
  @assignLanesFrom_rows
    (fun row => ∀ line ∈ row.laneData.lines,
      (line.type = LineType.mergeLeft ∨ line.type = LineType.mergeRight) →
        line.color = laneColor line.toLane)
    (fun _ _ _ hline _ => (stepCommit_lines hline).1)
    [] commits

/-- Witness for C8 on the merge-left line of the P2 row of the merge
scenario. -/
theorem c8_witness :
    ((⟨⟨"P2", ["B"]⟩,
       ⟨1, laneColor 1,
        [⟨0, 0, laneColor 0, LineType.straight⟩,
         ⟨1, 0, laneColor 0, LineType.mergeLeft⟩]⟩⟩ : GraphRow) ∈
      assignLanes [⟨"M", ["P1", "P2"]⟩, ⟨"P1", ["B"]⟩, ⟨"P2", ["B"]⟩, ⟨"B", []⟩]) ∧
    ((⟨1, 0, laneColor 0, LineType.mergeLeft⟩ : LineDef) ∈
      (⟨⟨"P2", ["B"]⟩,
        ⟨1, laneColor 1,
         [⟨0, 0, laneColor 0, LineType.straight⟩,
          ⟨1, 0, laneColor 0, LineType.mergeLeft⟩]⟩⟩ : GraphRow).laneData.lines) ∧
    ((⟨1, 0, laneColor 0, LineType.mergeLeft⟩ : LineDef).type = LineType.mergeLeft ∨
     (⟨1, 0, laneColor 0, LineType.mergeLeft⟩ : LineDef).type = LineType.mergeRight) ∧
    (⟨1, 0, laneColor 0, LineType.mergeLeft⟩ : LineDef).color =
      laneColor (⟨1, 0, laneColor 0, LineType.mergeLeft⟩ : LineDef).toLane :=
  ⟨by decide, by decide, Or.inl rfl,
   c8_merge_target_color [⟨"M", ["P1", "P2"]⟩, ⟨"P1", ["B"]⟩, ⟨"P2", ["B"]⟩, ⟨"B", []⟩]
     ⟨⟨"P2", ["B"]⟩,
      ⟨1, laneColor 1,
       [⟨0, 0, laneColor 0, LineType.straight⟩,
        ⟨1, 0, laneColor 0, LineType.mergeLeft⟩]⟩⟩ (by decide)
     ⟨1, 0, laneColor 0, LineType.mergeLeft⟩ (by decide) (Or.inl rfl)⟩

/-- C10: the instrumented pass projects to assignLanes, and every line's
endpoints are valid indices (at least 0, below the track length) of the
lane track as it stands at the end of that line's row. -/
theorem c10_endpoints_valid (commits : List GraphCommitInfo) :
    (assignLanesTracked [] commits).map Prod.fst = assignLanes commits ∧
    ∀ pr ∈ assignLanesTracked [] commits, ∀ line ∈ pr.1.laneData.lines,
      0 ≤ line.fromLane ∧ line.fromLane < pr.2.length ∧
      0 ≤ line.toLane ∧ line.toLane < pr.2.length := by
  constructor
  · exact assignLanesTracked_map_fst [] commits
  · intro pr hpr line hline
    obtain ⟨lanes0, c0, rfl⟩ := assignLanesTracked_mem hpr
    exact ⟨Nat.zero_le _, (stepCommit_lines hline).2.1,
           Nat.zero_le _, (stepCommit_lines hline).2.2.1⟩

/-- Witness for C10 on the fork line of M(parents=[P1,P2]), whose row
ends with the two-slot track expecting P1 and P2. -/
theorem c10_witness :
    (((⟨⟨"M", ["P1", "P2"]⟩,
        ⟨0, laneColor 0,
         [⟨0, 0, laneColor 0, LineType.straight⟩,
          ⟨0, 1, laneColor 1, LineType.forkRight⟩]⟩⟩ : GraphRow),
      ([some "P1", some "P2"] : Track)) ∈
      assignLanesTracked [] [⟨"M", ["P1", "P2"]⟩]) ∧
    ((⟨0, 1, laneColor 1, LineType.forkRight⟩ : LineDef) ∈
      (⟨⟨"M", ["P1", "P2"]⟩,
        ⟨0, laneColor 0,
         [⟨0, 0, laneColor 0, LineType.straight⟩,
          ⟨0, 1, laneColor 1, LineType.forkRight⟩]⟩⟩ : GraphRow).laneData.lines) ∧
    (0 ≤ (⟨0, 1, laneColor 1, LineType.forkRight⟩ : LineDef).fromLane ∧
     (⟨0, 1, laneColor 1, LineType.forkRight⟩ : LineDef).fromLane <
       ([some "P1", some "P2"] : Track).length ∧
     0 ≤ (⟨0, 1, laneColor 1, LineType.forkRight⟩ : LineDef).toLane ∧
     (⟨0, 1, laneColor 1, LineType.forkRight⟩ : LineDef).toLane <
       ([some "P1", some "P2"] : Track).length) :=
  ⟨by decide, by decide,
   (c10_endpoints_valid [⟨"M", ["P1", "P2"]⟩]).2
     (⟨⟨"M", ["P1", "P2"]⟩,
       ⟨0, laneColor 0,
        [⟨0, 0, laneColor 0, LineType.straight⟩,
         ⟨0, 1, laneColor 1, LineType.forkRight⟩]⟩⟩,
      ([some "P1", some "P2"] : Track)) (by decide)
     ⟨0, 1, laneColor 1, LineType.forkRight⟩ (by decide)⟩

end LookGit
